import Mathlib

/-!
Shallow embedding of the `nutility.h` header-only utility library: the
seeded random-value generation facility (shared `std::mt19937` engine,
`Irand`, `Drand`), the numeric helpers `isprime` and `ndigit`, the
distinct-value collector `fcs`, and the file-open wrappers.

The shared engine is modelled by the infinite stream of raw 32-bit words it
is committed to at seeding time (kept abstract as a function `Nat → Nat`)
together with the count of words consumed so far.  Machine integers are
modelled by `Int`; every claim that depends on overflow behaviour carries
the corresponding no-overflow hypothesis.
-/

namespace Nutility

/-- State of the shared `std::mt19937` engine: the raw word stream fixed at
seeding time and the number of words consumed so far. -/
structure EngineState where
  stream : Nat → Nat
  pos : Nat

/-- Raw 32-bit word the engine will produce next: `std::mt19937` output is a
32-bit unsigned value, hence the reduction modulo `2 ^ 32`. -/
def engineWord (e : EngineState) : Nat :=
  e.stream e.pos % 2 ^ 32

/-- Advancing the engine past one consumed word. -/
def engineAdvance (e : EngineState) : EngineState :=
  ⟨e.stream, e.pos + 1⟩

/-- Bounds held by a `std::uniform_int_distribution<int>` member
`m_dist` of `class Irand`. -/
structure Irand where
  min : Int
  max : Int
deriving DecidableEq

/-- Constructor `Irand(int min, int max) : m_dist{ min, max }` of the source:
it stores the two bounds unchecked and always yields a generator object. -/
def Irand.ctor (mn mx : Int) : Irand :=
  ⟨mn, mx⟩

/-- Model of `std::uniform_int_distribution<int>` applied to one raw engine
word: the word is reduced modulo the size of the closed range and offset by
the lower bound.  The C++ standard leaves the exact mapping unspecified but
requires a result in the closed range when the bounds are ordered; modular
reduction is the canonical such mapping.  When `max < min` the range size
computes to zero and the reduction degenerates to the identity, modelling
the unconstrained (undefined) behaviour of an invalid range. -/
def Irand.applyDist (g : Irand) (x : Nat) : Int :=
  g.min + Int.ofNat (x % (g.max - g.min + 1).toNat)

/-- Body of `int Irand::operator()()`, namely `return m_dist(urng());`: map
the next raw word of the shared engine through the distribution and advance
the engine by the consumed word. -/
def Irand.call (g : Irand) (e : EngineState) : Int × EngineState :=
  (g.applyDist (engineWord e), engineAdvance e)

/-- C1: for every integer generator constructed with bounds `(min, max)`
where `min ≤ max`, every value returned by a call to its `operator()` lies
in `[min, max]`, including the degenerate case `min = max`, for every
engine state — hence for every number of preceding draws by any mixture of
generators sharing the engine. -/
theorem Irand_call_in_range (g : Irand) (e : EngineState) (h : g.min ≤ g.max) :
    g.min ≤ (g.call e).1 ∧ (g.call e).1 ≤ g.max := by
  have hr : ((g.max - g.min + 1).toNat : Int) = g.max - g.min + 1 :=
    Int.toNat_of_nonneg (by omega)
  have hrpos : 0 < (g.max - g.min + 1).toNat := by omega
  have hlt : engineWord e % (g.max - g.min + 1).toNat < (g.max - g.min + 1).toNat :=
    Nat.mod_lt _ hrpos
  have hcast : (Int.ofNat (engineWord e % (g.max - g.min + 1).toNat)) <
      ((g.max - g.min + 1).toNat : Int) := Int.ofNat_lt.mpr hlt
  have hnn : (0 : Int) ≤ Int.ofNat (engineWord e % (g.max - g.min + 1).toNat) :=
    Int.ofNat_nonneg _
  simp only [Irand.call, Irand.applyDist]
  omega

/-- Witness for C1 at bounds `(2, 5)` and a concrete engine state. -/
theorem Irand_call_in_range_witness :
    (Irand.mk 2 5).min ≤ (Irand.mk 2 5).max ∧
      ((Irand.mk 2 5).min ≤ ((Irand.mk 2 5).call ⟨fun n => n, 0⟩).1 ∧
        ((Irand.mk 2 5).call ⟨fun n => n, 0⟩).1 ≤ (Irand.mk 2 5).max) :=
  ⟨by decide, Irand_call_in_range (Irand.mk 2 5) ⟨fun n => n, 0⟩ (by decide)⟩

/-- C5: an integer generator constructed with the degenerate range
`min = max = 5` returns exactly `5` on every call, from every engine
state. -/
theorem Irand_degenerate_always_five (e : EngineState) :
    (Irand.call ⟨5, 5⟩ e).1 = 5 := by
  simp [Irand.call, Irand.applyDist]

/-- C2 counterexample: constructing `Irand(5, 3)` signals no error at all —
the constructor succeeds, hands back a generator holding the bounds `(5, 3)`,
and the first draw from an engine whose next raw word is `7` returns `12`,
a value outside any candidate range.  No precondition failure and no error
result occur at construction time. -/
theorem Irand_invalid_range_cex :
    Irand.ctor 5 3 = ⟨5, 3⟩ ∧
      (Irand.call (Irand.ctor 5 3) ⟨fun _ => 7, 0⟩).1 = 12 := by
  exact ⟨rfl, by decide⟩

/-- C2 (amended): constructing an integer generator with `min > max`
performs no validation: the constructor always succeeds with the bounds
stored unchanged, and a subsequent draw returns `min` plus the raw engine
word, unconstrained to any range (the invalid range is undefined behaviour
at draw time, not an error signalled at construction). -/
theorem Irand_invalid_range_unchecked (mn mx : Int) (e : EngineState) (h : mx < mn) :
    Irand.ctor mn mx = ⟨mn, mx⟩ ∧
      (Irand.call (Irand.ctor mn mx) e).1 = mn + Int.ofNat (engineWord e) := by
  refine ⟨rfl, ?_⟩
  have h0 : (mx - mn + 1).toNat = 0 := by omega
  simp [Irand.call, Irand.applyDist, Irand.ctor, h0]

/-- Witness for the amended C2 at bounds `(5, 3)` and a concrete engine
state. -/
theorem Irand_invalid_range_unchecked_witness :
    (3 : Int) < 5 ∧
      (Irand.ctor 5 3 = ⟨5, 3⟩ ∧
        (Irand.call (Irand.ctor 5 3) ⟨fun _ => 7, 0⟩).1 =
          5 + Int.ofNat (engineWord ⟨fun _ => 7, 0⟩)) :=
  ⟨by decide, Irand_invalid_range_unchecked 5 3 ⟨fun _ => 7, 0⟩ (by decide)⟩

/-- Bounds held by a `std::uniform_real_distribution<double>` member
`m_dist` of `class Drand`.  Real arithmetic is modelled over the rationals
so that sampling stays executable; this suffices for the state-threading
claims, while claims about IEEE double rounding are outside the embedding. -/
structure Drand where
  dmin : ℚ
  dmax : ℚ
deriving DecidableEq

/-- Model of `std::uniform_real_distribution<double>` applied to one raw
engine word: the word, scaled into the unit interval, stretched to the
requested range and offset by its lower bound. -/
def Drand.applyDist (g : Drand) (x : Nat) : ℚ :=
  g.dmin + ((x : ℚ) / 2 ^ 32) * (g.dmax - g.dmin)

/-- Body of `double Drand::operator()()`, namely `return m_dist(urng());`:
map the next raw word of the shared engine through the distribution and
advance the engine by the consumed word. -/
def Drand.call (g : Drand) (e : EngineState) : ℚ × EngineState :=
  (g.applyDist (engineWord e), engineAdvance e)

/-- Reference to a generator object, integer or real, for a draw schedule
in which distinct generators interleave on the shared engine. -/
inductive GenRef where
  | ig : Irand → GenRef
  | dg : Drand → GenRef

/-- Value produced by one draw, integer or real. -/
inductive DrawVal where
  | iv : Int → DrawVal
  | dv : ℚ → DrawVal

/-- One draw from the referenced generator against the shared engine, as in
the source: each `operator()` hands the one shared engine to its own
distribution. -/
def drawOne : GenRef → EngineState → DrawVal × EngineState
  | .ig g, e => (.iv (g.call e).1, (g.call e).2)
  | .dg g, e => (.dv (g.call e).1, (g.call e).2)

/-- Run a whole interleaved draw schedule, each draw threading the single
shared engine state to the next. -/
def runInterleaved : List GenRef → EngineState → List DrawVal × EngineState
  | [], e => ([], e)
  | g :: gs, e =>
    let p := drawOne g e
    let q := runInterleaved gs p.2
    (p.1 :: q.1, q.2)

/-- Modelled from the spec: one single consistent stream of raw engine
outputs mapped through each generator in schedule order — the k-th draw of
the schedule applies the distribution of the k-th generator to the k-th
word of the stream. -/
def mappedStream : List GenRef → (Nat → Nat) → Nat → List DrawVal
  | [], _, _ => []
  | .ig g :: gs, f, p => .iv (g.applyDist (f p % 2 ^ 32)) :: mappedStream gs f (p + 1)
  | .dg g :: gs, f, p => .dv (g.applyDist (f p % 2 ^ 32)) :: mappedStream gs f (p + 1)

/-- C3: interleaving draws from any schedule of generators is equivalent to
mapping one single consistent stream of engine outputs through each
generator in schedule order: each draw, from whichever generator, consumes
exactly the next word of the one shared engine, and the run leaves the
stream itself untouched (no generator reseeds or owns an independent
engine) with the position advanced by exactly the number of draws. -/
theorem interleaved_equals_single_stream (gens : List GenRef) (e : EngineState) :
    runInterleaved gens e = (mappedStream gens e.stream e.pos, ⟨e.stream, e.pos + gens.length⟩) := by
  induction gens generalizing e with
  | nil => simp [runInterleaved, mappedStream]
  | cons g gs ih =>
    cases g <;>
      simp [runInterleaved, drawOne, Irand.call, Drand.call, engineAdvance, engineWord,
        mappedStream, ih] <;>
      omega

/-- Process-wide state of the facility: the function-local static engine of
`urng()`, absent until the first call that needs it. -/
structure ProcState where
  engine : Option EngineState

/-- Source `inline std::mt19937& urng()`: a function-local static engine,
seeded on the one occasion its initializer runs from `std::random_device`.
The parameter `entropy` stands for the raw word stream determined by that
one non-deterministic seed.  On every later call the same engine is handed
back and the process state is untouched. -/
def urng (entropy : Nat → Nat) (p : ProcState) : EngineState × ProcState :=
  match p.engine with
  | some e => (e, p)
  | none => (⟨entropy, 0⟩, ⟨some ⟨entropy, 0⟩⟩)

/-- Operations of the facility that touch the shared engine: a direct
`urng()` call, a draw by an integer generator, a draw by a real
generator. -/
inductive Op where
  | urngOp : Op
  | drawIntOp : Irand → Op
  | drawRealOp : Drand → Op
deriving DecidableEq

/-- Effect of one operation on the process state: every operation reaches
the engine through `urng`, constructing it on first need; a draw then
consumes one word. -/
def stepOp (entropy : Nat → Nat) (p : ProcState) : Op → ProcState
  | .urngOp => (urng entropy p).2
  | .drawIntOp _ => ⟨some (engineAdvance (urng entropy p).1)⟩
  | .drawRealOp _ => ⟨some (engineAdvance (urng entropy p).1)⟩

/-- Run a sequence of operations of the facility. -/
def runOps (entropy : Nat → Nat) (p : ProcState) (ops : List Op) : ProcState :=
  ops.foldl (stepOp entropy) p

lemma runOps_stream_preserved (entropy : Nat → Nat) (ops : List Op) (p : ProcState)
    (e : EngineState) (h : p.engine = some e) :
    ∃ k, (runOps entropy p ops).engine = some ⟨e.stream, e.pos + k⟩ := by
  induction ops generalizing p e with
  | nil => exact ⟨0, by simpa [runOps] using h⟩
  | cons op ops ih =>
    have hrun : runOps entropy p (op :: ops) = runOps entropy (stepOp entropy p op) ops := rfl
    cases op with
    | urngOp =>
      have hs : stepOp entropy p .urngOp = p := by simp [stepOp, urng, h]
      rw [hrun, hs]
      exact ih p e h
    | drawIntOp g =>
      have hs : stepOp entropy p (.drawIntOp g) = ⟨some ⟨e.stream, e.pos + 1⟩⟩ := by
        simp [stepOp, urng, h, engineAdvance]
      rw [hrun, hs]
      obtain ⟨k, hk⟩ := ih ⟨some ⟨e.stream, e.pos + 1⟩⟩ ⟨e.stream, e.pos + 1⟩ rfl
      exact ⟨1 + k, by simpa [Nat.add_assoc] using hk⟩
    | drawRealOp g =>
      have hs : stepOp entropy p (.drawRealOp g) = ⟨some ⟨e.stream, e.pos + 1⟩⟩ := by
        simp [stepOp, urng, h, engineAdvance]
      rw [hrun, hs]
      obtain ⟨k, hk⟩ := ih ⟨some ⟨e.stream, e.pos + 1⟩⟩ ⟨e.stream, e.pos + 1⟩ rfl
      exact ⟨1 + k, by simpa [Nat.add_assoc] using hk⟩

/-- C4: `urng()` hands back the same engine on every call once one exists
and leaves the state untouched; across any sequence of operations of the
facility an existing engine keeps its seeded stream forever, only its
position advancing (never reseeded, never reset, never replaced); starting
from a fresh process the engine exists exactly when some operation has
needed it, and when it exists its stream is the one fixed by the single
entropy seeding. -/
theorem urng_engine_constructed_once (entropy : Nat → Nat) (ops : List Op) :
    (∀ p e, p.engine = some e → urng entropy p = (e, p)) ∧
      (∀ p e, p.engine = some e →
        ∃ k, (runOps entropy p ops).engine = some ⟨e.stream, e.pos + k⟩) ∧
      ((runOps entropy ⟨none⟩ ops).engine = none ↔ ops = []) ∧
      (ops ≠ [] → ∃ k, (runOps entropy ⟨none⟩ ops).engine = some ⟨entropy, k⟩) := by
  have hfirst : ∀ op : Op, ∃ k0, stepOp entropy ⟨none⟩ op = ⟨some ⟨entropy, k0⟩⟩ := by
    intro op
    cases op with
    | urngOp => exact ⟨0, by simp [stepOp, urng]⟩
    | drawIntOp g => exact ⟨1, by simp [stepOp, urng, engineAdvance]⟩
    | drawRealOp g => exact ⟨1, by simp [stepOp, urng, engineAdvance]⟩
  have hsome : ∀ ops : List Op, ops ≠ [] →
      ∃ k, (runOps entropy ⟨none⟩ ops).engine = some ⟨entropy, k⟩ := by
    intro ops hne
    match ops with
    | [] => exact absurd rfl hne
    | op :: rest =>
      obtain ⟨k0, hk0⟩ := hfirst op
      have hrun : runOps entropy ⟨none⟩ (op :: rest) =
          runOps entropy (stepOp entropy ⟨none⟩ op) rest := rfl
      rw [hrun, hk0]
      obtain ⟨k, hk⟩ := runOps_stream_preserved entropy rest ⟨some ⟨entropy, k0⟩⟩ ⟨entropy, k0⟩ rfl
      exact ⟨k0 + k, hk⟩
  refine ⟨?_, ?_, ?_, hsome ops⟩
  · intro p e h
    simp [urng, h]
  · intro p e h
    exact runOps_stream_preserved entropy ops p e h
  · constructor
    · intro hnone
      by_contra hne
      obtain ⟨k, hk⟩ := hsome ops hne
      rw [hk] at hnone
      exact Option.noConfusion hnone
    · intro h
      subst h
      rfl

/-- Witness for C4 with the identity entropy stream, a single `urng()` call
as the operation list, and a concrete already-initialized process state. -/
theorem urng_engine_constructed_once_witness :
    (ProcState.mk (some ⟨fun n => n, 5⟩)).engine = some ⟨fun n => n, 5⟩ ∧
      urng (fun n => n) ⟨some ⟨fun n => n, 5⟩⟩ =
        (⟨fun n => n, 5⟩, ⟨some ⟨fun n => n, 5⟩⟩) ∧
      ([Op.urngOp] ≠ [] ∧
        ∃ k, (runOps (fun n => n) ⟨none⟩ [Op.urngOp]).engine = some ⟨fun n => n, k⟩) :=
  ⟨rfl,
    (urng_engine_constructed_once (fun n => n) [Op.urngOp]).1
      ⟨some ⟨fun n => n, 5⟩⟩ ⟨fun n => n, 5⟩ rfl,
    by simp,
    (urng_engine_constructed_once (fun n => n) [Op.urngOp]).2.2.2 (by simp)⟩

/-- Observable file system for the file-open wrappers: readable contents
per file name, and writability per file name. -/
structure FileSys where
  read : String → Option String
  writable : String → Bool

/-- Outcome of a wrapper call: a raised `std::runtime_error` carrying its
message, a process exit via `std::exit` carrying its code, or a normal
return of the opened stream. -/
inductive FileResult (α : Type) where
  | raised : String → FileResult α
  | exited : Nat → FileResult α
  | ok : α → FileResult α
deriving DecidableEq

/-- Source `open_text_file`: construct the `std::ifstream`; if it is not
open, throw `std::runtime_error` with the given message; otherwise return
the stream (modelled by the readable contents). -/
def open_text_file (fs : FileSys) (filename : String) : FileResult String :=
  match fs.read filename with
  | some s => .ok s
  | none => .raised (filename ++ " : cannot be opened!\n")

/-- Source `open_binary_file`: as `open_text_file` with the binary flag,
which does not change the observable open-or-throw behaviour. -/
def open_binary_file (fs : FileSys) (filename : String) : FileResult String :=
  match fs.read filename with
  | some s => .ok s
  | none => .raised (filename ++ " : cannot be opened!\n")

/-- Source `create_text_file`: construct the `std::ofstream`; throw when it
cannot be created, return it otherwise. -/
def create_text_file (fs : FileSys) (filename : String) : FileResult Unit :=
  if fs.writable filename then .ok () else .raised (filename ++ ": cannot be created!\n")

/-- Source `create_binary_file`: as `create_text_file` in binary mode. -/
def create_binary_file (fs : FileSys) (filename : String) : FileResult Unit :=
  if fs.writable filename then .ok () else .raised (filename ++ " : cannot be created!\n")

/-- Source `get_str_from_file` of `nutility.h`: open through
`open_text_file` (propagating its thrown error) and read the whole stream
into a string. -/
def get_str_from_file (fs : FileSys) (filename : String) : FileResult String :=
  match open_text_file fs filename with
  | .raised m => .raised m
  | .exited c => .exited c
  | .ok s => .ok s

/-- Source `get_str_from_file` of the older header (src/unnamed/part_001):
on open failure it prints to `std::cerr` and calls
`std::exit(EXIT_FAILURE)` — it terminates the process instead of raising. -/
def get_str_from_file_v1 (fs : FileSys) (filename : String) : FileResult String :=
  match fs.read filename with
  | none => .exited 1
  | some s => .ok s

/-- C7 counterexample: on a file system where no file opens, the older
header variant of `get_str_from_file` exits the process with code 1
instead of raising an error, diverging from the raising variant — so not
every file-open wrapper in the library converts open failure into a raised
error. -/
theorem get_str_from_file_v1_exits_cex :
    get_str_from_file_v1 ⟨fun _ => none, fun _ => true⟩ "data.txt" = FileResult.exited 1 ∧
      get_str_from_file_v1 ⟨fun _ => none, fun _ => true⟩ "data.txt" ≠
        get_str_from_file ⟨fun _ => none, fun _ => true⟩ "data.txt" :=
  ⟨rfl, by decide⟩

/-- C7 (amended): the wrappers of `nutility.h` (`open_text_file`,
`open_binary_file`, `create_text_file`, `create_binary_file`,
`get_str_from_file`) raise an error exactly on open failure and return the
opened stream exactly on success; the `get_str_from_file` of the older
header instead exits the process with `EXIT_FAILURE` on open failure. -/
theorem file_wrappers_raise_on_failure (fs : FileSys) (filename : String) :
    (fs.read filename = none →
      open_text_file fs filename = .raised (filename ++ " : cannot be opened!\n") ∧
        open_binary_file fs filename = .raised (filename ++ " : cannot be opened!\n") ∧
        get_str_from_file fs filename = .raised (filename ++ " : cannot be opened!\n") ∧
        get_str_from_file_v1 fs filename = .exited 1) ∧
      (∀ s, fs.read filename = some s →
        open_text_file fs filename = .ok s ∧
          open_binary_file fs filename = .ok s ∧
          get_str_from_file fs filename = .ok s ∧
          get_str_from_file_v1 fs filename = .ok s) ∧
      (fs.writable filename = false →
        create_text_file fs filename = .raised (filename ++ ": cannot be created!\n") ∧
          create_binary_file fs filename = .raised (filename ++ " : cannot be created!\n")) ∧
      (fs.writable filename = true →
        create_text_file fs filename = .ok () ∧ create_binary_file fs filename = .ok ()) := by
  refine ⟨fun h => ?_, fun s h => ?_, fun h => ?_, fun h => ?_⟩ <;>
    simp [open_text_file, open_binary_file, get_str_from_file, get_str_from_file_v1,
      create_text_file, create_binary_file, h]

/-- Witness for the amended C7 on a file system where nothing opens. -/
theorem file_wrappers_raise_on_failure_witness :
    (FileSys.mk (fun _ => none) (fun _ => true)).read "a.txt" = none ∧
      (open_text_file ⟨fun _ => none, fun _ => true⟩ "a.txt" =
          .raised ("a.txt" ++ " : cannot be opened!\n") ∧
        open_binary_file ⟨fun _ => none, fun _ => true⟩ "a.txt" =
          .raised ("a.txt" ++ " : cannot be opened!\n") ∧
        get_str_from_file ⟨fun _ => none, fun _ => true⟩ "a.txt" =
          .raised ("a.txt" ++ " : cannot be opened!\n") ∧
        get_str_from_file_v1 ⟨fun _ => none, fun _ => true⟩ "a.txt" = .exited 1) :=
  ⟨rfl, (file_wrappers_raise_on_failure ⟨fun _ => none, fun _ => true⟩ "a.txt").1 rfl⟩

/-- Loop of `ndigit`: `while (val != 0) { val /= 10; ++digit_count; }`.
C++ `int` division truncates toward zero, which is `Int.tdiv`; the loop
terminates because the absolute value strictly shrinks on every
iteration. -/
def ndigitLoop (val : Int) (digit_count : Nat) : Nat :=
  if h : val = 0 then digit_count else ndigitLoop (val.tdiv 10) (digit_count + 1)
termination_by val.natAbs
decreasing_by
  have habs : (val.tdiv 10).natAbs = val.natAbs / 10 := Int.natAbs_tdiv val 10
  have hpos : 0 < val.natAbs := Int.natAbs_pos.mpr h
  omega

/-- Source `constexpr int ndigit(int val)`: `0` has one digit, otherwise
count how many divisions by ten reach zero. -/
def ndigit (val : Int) : Int :=
  if val = 0 then 1 else Int.ofNat (ndigitLoop val 0)

lemma ndigitLoop_eq_log :
    ∀ (n : Nat) (val : Int), val.natAbs = n → val ≠ 0 → ∀ c : Nat,
      ndigitLoop val c = Nat.log 10 val.natAbs + 1 + c := by
  intro n
  induction n using Nat.strong_induction_on with
  | _ n ih =>
    intro val hn hval c
    have habs : (val.tdiv 10).natAbs = val.natAbs / 10 := Int.natAbs_tdiv val 10
    rw [ndigitLoop, dif_neg hval]
    rcases eq_or_ne (val.tdiv 10) 0 with h0 | h0
    · have h10 : val.natAbs < 10 := by
        have := Int.natAbs_eq_zero.mpr h0
        omega
      have hlog : Nat.log 10 val.natAbs = 0 := Nat.log_eq_zero_iff.mpr (Or.inl h10)
      rw [h0, ndigitLoop, dif_pos rfl, hlog]
      omega
    · have hne : (val.tdiv 10).natAbs ≠ 0 := Int.natAbs_ne_zero.mpr h0
      have hposn : 0 < val.natAbs := Int.natAbs_pos.mpr hval
      have hlt : (val.tdiv 10).natAbs < n := by omega
      rw [ih _ hlt (val.tdiv 10) rfl h0 (c + 1), habs, Nat.log_div_base]
      have h10 : 10 ≤ val.natAbs := by omega
      have hpos : 0 < Nat.log 10 val.natAbs := Nat.log_pos (by norm_num) h10
      omega

/-- C9: `ndigit` computes the number of decimal digits of the absolute
value of its argument: `ndigit 0 = 1`, `ndigit` is invariant under
negation, for a nonzero argument the result is the unique `d ≥ 1` with
`10 ^ (d - 1) ≤ |val| < 10 ^ d`, and the function is total — including at
the most negative 32-bit `int`, where it returns 10. -/
theorem ndigit_correct (val : Int) :
    ndigit 0 = 1 ∧
      ndigit (-val) = ndigit val ∧
      ndigit (-2147483648) = 10 ∧
      (val ≠ 0 →
        1 ≤ ndigit val ∧
          10 ^ ((ndigit val).toNat - 1) ≤ val.natAbs ∧
          val.natAbs < 10 ^ (ndigit val).toNat ∧
          ∀ d : Nat, 1 ≤ d → 10 ^ (d - 1) ≤ val.natAbs → val.natAbs < 10 ^ d →
            (ndigit val).toNat = d) := by
  have key : ∀ w : Int, w ≠ 0 → ndigit w = Int.ofNat (Nat.log 10 w.natAbs + 1) := by
    intro w hw
    rw [ndigit, if_neg hw, ndigitLoop_eq_log w.natAbs w rfl hw 0]
  refine ⟨by simp [ndigit], ?_, ?_, ?_⟩
  · rcases eq_or_ne val 0 with rfl | hval
    · simp
    · rw [key val hval, key (-val) (by simpa using hval), Int.natAbs_neg]
  · rw [key (-2147483648) (by decide)]
    have hlog : Nat.log 10 (Int.natAbs (-2147483648)) = 9 := by
      refine Nat.log_eq_of_pow_le_of_lt_pow ?_ ?_ <;> norm_num
    rw [hlog]
    rfl
  · intro hval
    rw [key val hval]
    have h1 : 10 ^ Nat.log 10 val.natAbs ≤ val.natAbs :=
      Nat.pow_log_le_self 10 (Int.natAbs_ne_zero.mpr hval)
    have h2 : val.natAbs < 10 ^ (Nat.log 10 val.natAbs + 1) :=
      Nat.lt_pow_succ_log_self (by norm_num) _
    have hofn : (Int.ofNat (Nat.log 10 val.natAbs + 1)).toNat = Nat.log 10 val.natAbs + 1 := rfl
    have hone : (1 : Int) ≤ Int.ofNat (Nat.log 10 val.natAbs + 1) := by
      rw [Int.ofNat_eq_natCast]
      exact_mod_cast Nat.succ_le_succ (Nat.zero_le _)
    refine ⟨hone, ?_, ?_, ?_⟩
    · rw [hofn, Nat.add_sub_cancel]
      exact h1
    · rw [hofn]
      exact h2
    · intro d hd hdl hdu
      have hlogd : Nat.log 10 val.natAbs = d - 1 := by
        refine Nat.log_eq_of_pow_le_of_lt_pow hdl ?_
        have hd1 : d - 1 + 1 = d := by omega
        rw [hd1]
        exact hdu
      rw [hofn, hlogd]
      omega

/-- Witness for C9 at `val = -987`, whose absolute value has three decimal
digits. -/
theorem ndigit_correct_witness :
    (-987 : Int) ≠ 0 ∧
      (1 ≤ ndigit (-987) ∧
        10 ^ ((ndigit (-987)).toNat - 1) ≤ (Int.natAbs (-987)) ∧
        (Int.natAbs (-987)) < 10 ^ (ndigit (-987)).toNat ∧
        ∀ d : Nat, 1 ≤ d → 10 ^ (d - 1) ≤ (Int.natAbs (-987)) →
          (Int.natAbs (-987)) < 10 ^ d → (ndigit (-987)).toNat = d) :=
  ⟨by decide, (ndigit_correct (-987)).2.2.2 (by decide)⟩

/-- Trial-division loop of `isprime`:
`for (int k = 7; k * k <= val; k += 2) if (val % k == 0) return false;`.
The loop variable only ever takes the odd values 7, 9, 11, …, so it is
embedded as a natural number stepping by two; under the no-overflow
hypothesis of the claim the C++ `int` arithmetic agrees with `Int`. -/
def isprimeLoop (val : Int) (k : Nat) : Bool :=
  if h : (k : Int) * k ≤ val then
    (if val % (k : Int) = 0 then false else isprimeLoop val (k + 2))
  else true
termination_by val.toNat + 2 - k
decreasing_by
  rcases Nat.eq_zero_or_pos k with hk | hk
  · subst hk
    omega
  · have h1 : ((k * k : Nat) : Int) ≤ val := by push_cast; exact h
    have h3 : k ≤ k * k := Nat.le_mul_of_pos_left k hk
    omega

/-- Source `constexpr bool isprime(int val)`: reject values below two,
settle multiples of 2, 3, 5 directly, then trial-divide by the odd numbers
from 7 up to the square root. -/
def isprime (val : Int) : Bool :=
  if val < 2 then false
  else if val % 2 = 0 then val == 2
  else if val % 3 = 0 then val == 3
  else if val % 5 = 0 then val == 5
  else isprimeLoop val 7

lemma isprimeLoop_eq_true_iff :
    ∀ (fuel : Nat) (val : Int) (k : Nat), val.toNat + 2 - k = fuel → k % 2 = 1 →
      (isprimeLoop val k = true ↔
        ∀ j : Nat, k ≤ j → j % 2 = 1 → (j : Int) * j ≤ val → ¬ ((j : Int) ∣ val)) := by
  intro fuel
  induction fuel using Nat.strong_induction_on with
  | _ fuel ih =>
    intro val k hfuel hodd
    rw [isprimeLoop]
    by_cases hguard : (k : Int) * k ≤ val
    · rw [dif_pos hguard]
      have hkpos : 0 < k := by omega
      have hksq : ((k * k : Nat) : Int) ≤ val := by push_cast; exact hguard
      have hkk : k ≤ k * k := Nat.le_mul_of_pos_left k hkpos
      by_cases hmod : val % (k : Int) = 0
      · rw [if_pos hmod]
        constructor
        · intro hb
          exact absurd hb (by simp)
        · intro hall
          exact absurd (Int.dvd_of_emod_eq_zero hmod)
            (hall k le_rfl hodd hguard)
      · rw [if_neg hmod]
        have hlt : val.toNat + 2 - (k + 2) < fuel := by omega
        rw [ih _ hlt val (k + 2) rfl (by omega)]
        constructor
        · intro hall j hj hjodd hjsq hjdvd
          rcases Nat.lt_or_ge j (k + 2) with hjlt | hjge
          · have hjk : j = k := by omega
            subst hjk
            exact hmod (Int.emod_eq_zero_of_dvd hjdvd)
          · exact hall j hjge hjodd hjsq hjdvd
        · intro hall j hj hjodd hjsq hjdvd
          exact hall j (by omega) hjodd hjsq hjdvd
    · rw [dif_neg hguard]
      constructor
      · intro _ j hj hjodd hjsq hjdvd
        have hmono : (k : Int) * k ≤ (j : Int) * j := by
          exact_mod_cast Nat.mul_le_mul hj hj
        exact hguard (le_trans hmono hjsq)
      · intro _
        rfl

lemma no_int_divisor_iff_prime (n : Nat) (h2 : 2 ≤ n) :
    (∀ d : Int, 1 < d → d < (n : Int) → ¬ d ∣ (n : Int)) ↔ Nat.Prime n := by
  constructor
  · intro hall
    by_contra hnp
    obtain ⟨m, hmdvd, hm2, hmlt⟩ := Nat.exists_dvd_of_not_prime2 h2 hnp
    exact hall m (by exact_mod_cast hm2) (by exact_mod_cast hmlt)
      (Int.natCast_dvd_natCast.mpr hmdvd)
  · intro hp d hd1 hdn hdvd
    have hd0 : (0 : Int) ≤ d := by omega
    obtain ⟨m, rfl⟩ := Int.eq_ofNat_of_zero_le hd0
    have hmdvd : m ∣ n := Int.natCast_dvd_natCast.mp hdvd
    rcases Nat.Prime.eq_one_or_self_of_dvd hp m hmdvd with rfl | rfl
    · omega
    · omega

lemma isprimeLoop7_iff_prime (val : Int) (hge : 2 ≤ val)
    (hm2 : val % 2 ≠ 0) (hm3 : val % 3 ≠ 0) (hm5 : val % 5 ≠ 0) :
    (isprimeLoop val 7 = true ↔ Nat.Prime val.toNat) := by
  have hval : ((val.toNat : Int)) = val := Int.toNat_of_nonneg (by omega)
  rw [isprimeLoop_eq_true_iff (val.toNat + 2 - 7) val 7 rfl (by norm_num)]
  constructor
  · intro hall
    by_contra hnp
    have hn2 : 2 ≤ val.toNat := by omega
    have hp := Nat.minFac_prime (by omega : val.toNat ≠ 1)
    have hdvd := Nat.minFac_dvd val.toNat
    have hsq : val.toNat.minFac ^ 2 ≤ val.toNat := Nat.minFac_sq_le_self (by omega) hnp
    have hdvdInt : (val.toNat.minFac : Int) ∣ val := by
      rw [← hval]; exact_mod_cast hdvd
    have hp2 : val.toNat.minFac ≠ 2 := by
      rintro hq; rw [hq] at hdvdInt
      exact hm2 (Int.emod_eq_zero_of_dvd (by exact_mod_cast hdvdInt))
    have hp3 : val.toNat.minFac ≠ 3 := by
      rintro hq; rw [hq] at hdvdInt
      exact hm3 (Int.emod_eq_zero_of_dvd (by exact_mod_cast hdvdInt))
    have hp5 : val.toNat.minFac ≠ 5 := by
      rintro hq; rw [hq] at hdvdInt
      exact hm5 (Int.emod_eq_zero_of_dvd (by exact_mod_cast hdvdInt))
    have hpodd : val.toNat.minFac % 2 = 1 :=
      Nat.odd_iff.mp (Nat.Prime.odd_of_ne_two hp hp2)
    have hple := Nat.Prime.two_le hp
    have hp7 : 7 ≤ val.toNat.minFac := by omega
    have hsqInt : ((val.toNat.minFac : Int)) * (val.toNat.minFac : Int) ≤ val := by
      rw [← hval]
      have : val.toNat.minFac * val.toNat.minFac ≤ val.toNat := by
        have := hsq
        rw [pow_two] at this
        exact this
      exact_mod_cast this
    exact hall val.toNat.minFac hp7 hpodd hsqInt hdvdInt
  · intro hprime j hj hjodd hjsq hjdvd
    have hjn : j ∣ val.toNat := by
      rw [← Int.natCast_dvd_natCast, hval]
      exact hjdvd
    rcases Nat.Prime.eq_one_or_self_of_dvd hprime j hjn with h1 | hself
    · omega
    · have hjj : (j : Int) * j ≤ (j : Int) := by
        rw [← hself] at hval
        rw [hval] at hjsq ⊢
        exact hjsq
      have hjjn : j * j ≤ j := by exact_mod_cast hjj
      have h7j : 7 * j ≤ j * j := Nat.mul_le_mul_right j hj
      omega

lemma small_divisor_case (val : Int) (q : Nat) (hq : Nat.Prime q) (hge : 2 ≤ val)
    (hmq : val % (q : Int) = 0) :
    ((val == (q : Int)) = true ↔
      (2 ≤ val ∧ ∀ d : Int, 1 < d → d < val → ¬ d ∣ val)) := by
  have hval : ((val.toNat : Int)) = val := Int.toNat_of_nonneg (by omega)
  constructor
  · intro hb
    have hvq : val = (q : Int) := by simpa using hb
    subst hvq
    refine ⟨hge, ?_⟩
    have := (no_int_divisor_iff_prime q hq.two_le).mpr hq
    exact this
  · rintro ⟨-, hall⟩
    have hbridge := no_int_divisor_iff_prime val.toNat (by omega)
    rw [hval] at hbridge
    have hprime := hbridge.mp hall
    have hqdvd : q ∣ val.toNat := by
      rw [← Int.natCast_dvd_natCast, hval]
      exact Int.dvd_of_emod_eq_zero hmq
    rcases Nat.Prime.eq_one_or_self_of_dvd hprime q hqdvd with h1 | hself
    · exact absurd h1 (Nat.Prime.ne_one hq)
    · have : val = (q : Int) := by rw [← hval, hself]
      simp [this]

/-- C8: under the no-overflow hypothesis `0 ≤ val` of the claim, `isprime`
returns `true` exactly for the prime numbers: it returns `false` for every
`val < 2`, and for `val ≥ 2` it returns `true` precisely when no integer
`d` with `1 < d < val` divides `val`. -/
theorem isprime_correct (val : Int) (h : 0 ≤ val) :
    (isprime val = true ↔
      (2 ≤ val ∧ ∀ d : Int, 1 < d → d < val → ¬ d ∣ val)) := by
  rcases lt_or_le val 2 with hlt | hge
  · rw [isprime, if_pos hlt]
    simp only [Bool.false_eq_true, false_iff, not_and]
    intro h2
    omega
  · have hval : ((val.toNat : Int)) = val := Int.toNat_of_nonneg h
    have hbridge := no_int_divisor_iff_prime val.toNat (by omega)
    rw [hval] at hbridge
    rw [isprime, if_neg (by omega)]
    by_cases hm2 : val % 2 = 0
    · rw [if_pos hm2]
      exact small_divisor_case val 2 Nat.prime_two hge (by exact_mod_cast hm2)
    rw [if_neg hm2]
    by_cases hm3 : val % 3 = 0
    · rw [if_pos hm3]
      exact small_divisor_case val 3 Nat.prime_three hge (by exact_mod_cast hm3)
    rw [if_neg hm3]
    by_cases hm5 : val % 5 = 0
    · rw [if_pos hm5]
      exact small_divisor_case val 5 (by norm_num) hge (by exact_mod_cast hm5)
    rw [if_neg hm5]
    rw [isprimeLoop7_iff_prime val hge hm2 hm3 hm5]
    constructor
    · intro hp
      exact ⟨hge, hbridge.mpr hp⟩
    · rintro ⟨-, hall⟩
      exact hbridge.mp hall

/-- Witness for C8 at `val = 29`. -/
theorem isprime_correct_witness :
    (0 : Int) ≤ 29 ∧
      (isprime 29 = true ↔
        (2 ≤ (29 : Int) ∧ ∀ d : Int, 1 < d → d < 29 → ¬ d ∣ 29)) :=
  ⟨by decide, isprime_correct 29 (by decide)⟩

/-- Loop of `fcs` with explicit fuel:
`while (s.size() != n) s.insert(func());` collecting into a `std::set`.
The successive results of `func` are modelled by the stream `f`; the fuel
bounds how many iterations the run is observed for, so a run still looping
after `fuel` insertions is `none` and a terminating one is `some` of the
final set. -/
def fcsLoop {α : Type} [LinearOrder α] [DecidableEq α] (f : Nat → α) (n : Nat) :
    Nat → Finset α → Nat → Option (Finset α)
  | 0, s, _ => if s.card = n then some s else none
  | fuel + 1, s, i => if s.card = n then some s else fcsLoop f n fuel (insert (f i) s) (i + 1)

/-- Source `void fcs(C& c, std::size_t n, F func)`: collect values of
`func` into a `std::set` until it holds `n` of them, then
`c.assign(s.begin(), s.end())` — the previous contents of `c` are
discarded and replaced by the in-order (ascending) traversal of the
set. -/
def fcs {α : Type} [LinearOrder α] [DecidableEq α] (c : List α) (f : Nat → α)
    (n fuel : Nat) : Option (List α) :=
  match fcsLoop f n fuel ∅ 0 with
  | none => none
  | some s => some (s.sort (· ≤ ·))

lemma fcsLoop_card {α : Type} [LinearOrder α] [DecidableEq α] (f : Nat → α) (n : Nat) :
    ∀ (fuel : Nat) (s : Finset α) (i : Nat) (t : Finset α),
      fcsLoop f n fuel s i = some t → t.card = n := by
  intro fuel
  induction fuel with
  | zero =>
    intro s i t h
    rw [fcsLoop] at h
    by_cases hc : s.card = n
    · rw [if_pos hc] at h
      cases h
      exact hc
    · rw [if_neg hc] at h
      exact absurd h (by simp)
  | succ fuel ih =>
    intro s i t h
    rw [fcsLoop] at h
    by_cases hc : s.card = n
    · rw [if_pos hc] at h
      cases h
      exact hc
    · rw [if_neg hc] at h
      exact ih _ _ _ h

lemma fcsLoop_subset {α : Type} [LinearOrder α] [DecidableEq α] (f : Nat → α) (n : Nat) :
    ∀ (fuel : Nat) (s : Finset α) (i : Nat) (t : Finset α),
      fcsLoop f n fuel s i = some t → t ⊆ s ∪ (Finset.Ico i (i + fuel)).image f := by
  intro fuel
  induction fuel with
  | zero =>
    intro s i t h
    rw [fcsLoop] at h
    by_cases hc : s.card = n
    · rw [if_pos hc] at h
      cases h
      exact Finset.subset_union_left
    · rw [if_neg hc] at h
      exact absurd h (by simp)
  | succ fuel ih =>
    intro s i t h
    rw [fcsLoop] at h
    by_cases hc : s.card = n
    · rw [if_pos hc] at h
      cases h
      exact Finset.subset_union_left
    · rw [if_neg hc] at h
      have hsub := ih _ _ _ h
      refine hsub.trans ?_
      intro x hx
      rcases Finset.mem_union.mp hx with hx | hx
      · rcases Finset.mem_insert.mp hx with rfl | hx
        · refine Finset.mem_union_right _ (Finset.mem_image.mpr ⟨i, ?_, rfl⟩)
          rw [Finset.mem_Ico]
          omega
        · exact Finset.mem_union_left _ hx
      · rcases Finset.mem_image.mp hx with ⟨j, hj, rfl⟩
        rw [Finset.mem_Ico] at hj
        refine Finset.mem_union_right _ (Finset.mem_image.mpr ⟨j, ?_, rfl⟩)
        rw [Finset.mem_Ico]
        omega

lemma fcsLoop_total {α : Type} [LinearOrder α] [DecidableEq α] (f : Nat → α) (n : Nat) :
    ∀ (fuel : Nat) (s : Finset α) (i : Nat), s.card ≤ n →
      n ≤ (s ∪ (Finset.Ico i (i + fuel)).image f).card →
      ∃ t, fcsLoop f n fuel s i = some t := by
  intro fuel
  induction fuel with
  | zero =>
    intro s i hle hcard
    have : s.card = n := by
      have hico : Finset.Ico i (i + 0) = ∅ := by simp
      rw [hico] at hcard
      simp at hcard
      omega
    exact ⟨s, by rw [fcsLoop, if_pos this]⟩
  | succ fuel ih =>
    intro s i hle hcard
    by_cases hc : s.card = n
    · exact ⟨s, by rw [fcsLoop, if_pos hc]⟩
    · have hlt : s.card < n := lt_of_le_of_ne hle hc
      have hgrow : s ∪ (Finset.Ico i (i + (fuel + 1))).image f ⊆
          insert (f i) s ∪ (Finset.Ico (i + 1) (i + 1 + fuel)).image f := by
        intro x hx
        rcases Finset.mem_union.mp hx with hx | hx
        · exact Finset.mem_union_left _ (Finset.mem_insert_of_mem hx)
        · rcases Finset.mem_image.mp hx with ⟨j, hj, rfl⟩
          rw [Finset.mem_Ico] at hj
          rcases Nat.eq_or_lt_of_le hj.1 with rfl | hjgt
          · exact Finset.mem_union_left _ (Finset.mem_insert_self _ _)
          · refine Finset.mem_union_right _ (Finset.mem_image.mpr ⟨j, ?_, rfl⟩)
            rw [Finset.mem_Ico]
            omega
      have hins : (insert (f i) s).card ≤ n := by
        have := Finset.card_insert_le (f i) s
        omega
      have hcard2 : n ≤ (insert (f i) s ∪ (Finset.Ico (i + 1) (i + 1 + fuel)).image f).card :=
        le_trans hcard (Finset.card_le_card hgrow)
      obtain ⟨t, ht⟩ := ih (insert (f i) s) (i + 1) hins hcard2
      exact ⟨t, by rw [fcsLoop, if_neg hc]; exact ht⟩

/-- C10: whenever `fcs` terminates, the container holds exactly `n`
pairwise-distinct values in strictly increasing order, every one of them a
value produced by `func`, and the previous contents of the container have
been discarded (the result does not depend on them at all); conversely,
when `n` distinct values occur among the observed outputs of `func`, the
collecting loop reaches size `n` and stops. -/
theorem fcs_correct {α : Type} [LinearOrder α] [DecidableEq α] (c : List α)
    (f : Nat → α) (n fuel : Nat) :
    (∀ l, fcs c f n fuel = some l →
      l.length = n ∧ List.Sorted (· < ·) l ∧ l.Nodup ∧
        (∀ c2 : List α, fcs c2 f n fuel = fcs c f n fuel) ∧
        ∀ x ∈ l, ∃ i, i < fuel ∧ f i = x) ∧
      (n ≤ ((Finset.range fuel).image f).card → ∃ l, fcs c f n fuel = some l) := by
  constructor
  · intro l hl
    rw [fcs] at hl
    rcases hrun : fcsLoop f n fuel (∅ : Finset α) 0 with _ | t
    · rw [hrun] at hl
      exact absurd hl (by simp)
    · rw [hrun] at hl
      have hlt : l = t.sort (· ≤ ·) := by
        cases hl
        rfl
      subst hlt
      refine ⟨?_, Finset.sort_sorted_lt t, Finset.sort_nodup _ t, fun c2 => rfl, ?_⟩
      · rw [Finset.length_sort]
        exact fcsLoop_card f n fuel ∅ 0 t hrun
      · intro x hx
        have hxt : x ∈ t := (Finset.mem_sort _).mp hx
        have hsub := fcsLoop_subset f n fuel ∅ 0 t hrun
        have := hsub hxt
        rw [Finset.empty_union] at this
        rcases Finset.mem_image.mp this with ⟨j, hj, rfl⟩
        rw [Finset.mem_Ico] at hj
        exact ⟨j, by omega, rfl⟩
  · intro hcard
    have h0 : (∅ : Finset α).card ≤ n := by simp
    have hc2 : n ≤ ((∅ : Finset α) ∪ (Finset.Ico 0 (0 + fuel)).image f).card := by
      rw [Finset.empty_union]
      have : Finset.Ico 0 (0 + fuel) = Finset.range fuel := by
        rw [Nat.zero_add, Finset.range_eq_Ico]
      rw [this]
      exact hcard
    obtain ⟨t, ht⟩ := fcsLoop_total f n fuel ∅ 0 h0 hc2
    exact ⟨t.sort (· ≤ ·), by rw [fcs, ht]⟩

/-- Witness for C10 with the identity stream, target size 2, fuel 3, and a
nonempty previous container content that the call discards. -/
theorem fcs_correct_witness :
    2 ≤ ((Finset.range 3).image (fun i : Nat => i)).card ∧
      ∃ l, fcs [9] (fun i : Nat => i) 2 3 = some l :=
  ⟨by decide, (fcs_correct [9] (fun i : Nat => i) 2 3).2 (by decide)⟩

end Nutility
